import Mathlib

/-!
Shallow embedding of the playlist-sync program in src/main.py.

The program reads all tracks of an Apple Music playlist through a paginated
API, searches each on Spotify with a two-pass strategy, and on console
confirmation replaces a Spotify playlist with the matched tracks sorted by
artist name.  External collaborators (the Apple Music page API, the Spotify
search, the write endpoints, the console) are modelled as explicit
parameters; write effects are reified as a call trace.
-/

namespace AppleSpotifySync

/-- A usable source track with fields artist and name, as accumulated by
get_apple_music_tracks. -/
structure AppleTrack where
  artist : String
  name : String
deriving DecidableEq, Repr

/-- Attributes object of a raw Apple Music track record; either string
field may be absent. -/
structure RawAttributes where
  artistName : Option String
  name : Option String
deriving DecidableEq, Repr

/-- A raw record from one page of playlist_relationship; the attributes
field itself may be absent. -/
structure RawTrack where
  attributes : Option RawAttributes
deriving DecidableEq, Repr

/-- The per-record usability check and projection of get_apple_music_tracks:
a record is kept iff it has an attributes field with both artistName and
name present. -/
def toAppleTrack? (r : RawTrack) : Option AppleTrack :=
  match r.attributes with
  | none => none
  | some a =>
    match a.artistName, a.name with
    | some artist, some songName => some ⟨artist, songName⟩
    | _, _ => none

/-- The Apple Music page API: for an offset, the raw records of the page
requested with limit 100 at that offset. -/
abbrev ApplePages := Nat → List RawTrack

/-- The pagination loop of get_apple_music_tracks, with explicit fuel for
the unbounded while-loop.  Each step requests the page at the current
offset, keeps its usable records, and stops when the raw page has fewer
than 100 records, otherwise continues at offset + 100.  Returns the
accumulated usable tracks and the number of page requests issued; none
when the fuel runs out, i.e. the Python loop would still be running. -/
def fetchPages (api : ApplePages) : Nat → Nat → Option (List AppleTrack × Nat)
  | 0, _ => none
  | fuel + 1, offset =>
    let page := api offset
    let usable := page.filterMap toAppleTrack?
    if page.length < 100 then
      some (usable, 1)
    else
      match fetchPages api fuel (offset + 100) with
      | none => none
      | some (rest, reqs) => some (usable ++ rest, reqs + 1)

/-- get_apple_music_tracks: fetch all pages starting at offset 0. -/
def get_apple_music_tracks (api : ApplePages) (fuel : Nat) :
    Option (List AppleTrack × Nat) :=
  fetchPages api fuel 0

/-- ASCII whitespace recognised by the regex class backslash-s and by
str.strip. -/
def isPyWs (c : Char) : Bool :=
  c == ' ' || c == '\t' || c == '\n' || c == '\r' || c == '\x0b' || c == '\x0c'

/-- Match of the first regex branch at the start of cs: greedy whitespace,
an opening paren, everything up to the next closing paren, the closing
paren itself.  Returns the remainder after the match, or none when the
branch does not match here. -/
def matchParenAt (cs : List Char) : Option (List Char) :=
  match cs.dropWhile isPyWs with
  | c :: rest =>
    if c = '(' then
      match rest.dropWhile (· != ')') with
      | e :: rest2 => if e = ')' then some rest2 else none
      | [] => none
    else none
  | [] => none

/-- Match of the second regex branch at the start of cs: greedy whitespace,
an opening square bracket, everything up to the next closing bracket, the
closing bracket itself. -/
def matchBracketAt (cs : List Char) : Option (List Char) :=
  match cs.dropWhile isPyWs with
  | c :: rest =>
    if c = '[' then
      match rest.dropWhile (· != ']') with
      | e :: rest2 => if e = ']' then some rest2 else none
      | [] => none
    else none
  | [] => none

/-- One left-to-right scan of re.sub with the cleaning pattern and empty
replacement, with explicit step fuel: at each position try the paren
branch, then the bracket branch; on a match drop it and continue after
it, otherwise keep the character and move on.  Every step consumes at
least one character (a branch match consumes at least an opening and a
closing delimiter), so fuel equal to the string length suffices. -/
def reSubCleanFuel : Nat → List Char → List Char
  | 0, _ => []
  | _ + 1, [] => []
  | fuel + 1, c :: cs =>
    match matchParenAt (c :: cs) with
    | some rest => reSubCleanFuel fuel rest
    | none =>
      match matchBracketAt (c :: cs) with
      | some rest => reSubCleanFuel fuel rest
      | none => c :: reSubCleanFuel fuel cs

/-- The full re.sub pass over a character list. -/
def reSubClean (cs : List Char) : List Char :=
  reSubCleanFuel cs.length cs

/-- Python str.strip: drop whitespace from both ends. -/
def pyStrip (cs : List Char) : List Char :=
  ((cs.dropWhile isPyWs).reverse.dropWhile isPyWs).reverse

/-- The title-cleaning step of find_spotify_tracks: remove every match of
the paren and bracket pattern, then strip surrounding whitespace. -/
def cleanTitle (s : String) : String :=
  String.mk (pyStrip (reSubClean s.data))

/-- A destination track as returned by the Spotify search: id, name, and
the name of the first artist. -/
structure SpotifyTrack where
  id : String
  artist : String
  name : String
deriving DecidableEq, Repr

/-- The Spotify search collaborator: a query string either raises or
returns the item list of the response. -/
abbrev SearchAPI := String → Except String (List SpotifyTrack)

/-- The query string built from a track name and artist. -/
def searchQuery (name artist : String) : String :=
  "track:" ++ name ++ " artist:" ++ artist

/-- The per-track outcome: appended to found_tracks, or to
not_found_tracks as a descriptor string. -/
inductive MatchResult where
  | found (t : SpotifyTrack)
  | notFound (desc : String)
deriving DecidableEq, Repr

/-- Final-result processing of one track: take the top item when the item
list is non-empty, otherwise report the track as not found. -/
def processResult (t : AppleTrack) (items : List SpotifyTrack) : MatchResult :=
  match items with
  | top :: _ => .found ⟨top.id, top.artist, top.name⟩
  | [] => .notFound (t.artist ++ " - " ++ t.name)

/-- Descriptor recorded when the per-track try block raises. -/
def errorDesc (t : AppleTrack) : String :=
  t.artist ++ " - " ++ t.name ++ " (Error during search)"

/-- One iteration of the loop of find_spotify_tracks: first search with the
literal title; when it returns no items, clean the title and search again,
but only when cleaning changed the title; any raise is caught and recorded
as a not-found descriptor tagged as a search error.  Also returns the
queries issued, in order. -/
def searchOne (sp : SearchAPI) (t : AppleTrack) : MatchResult × List String :=
  let q1 := searchQuery t.name t.artist
  match sp q1 with
  | .error _ => (.notFound (errorDesc t), [q1])
  | .ok items =>
    if items.isEmpty then
      let cleaned_name := cleanTitle t.name
      if cleaned_name ≠ t.name then
        let q2 := searchQuery cleaned_name t.artist
        match sp q2 with
        | .error _ => (.notFound (errorDesc t), [q1, q2])
        | .ok items2 => (processResult t items2, [q1, q2])
      else
        (processResult t items, [q1])
    else
      (processResult t items, [q1])

/-- find_spotify_tracks: process the source tracks in order, splitting the
outcomes into the found list and the not-found descriptor list. -/
def find_spotify_tracks (sp : SearchAPI) : List AppleTrack → List SpotifyTrack × List String
  | [] => ([], [])
  | t :: ts =>
    let rest := find_spotify_tracks sp ts
    match (searchOne sp t).1 with
    | .found s => (s :: rest.1, rest.2)
    | .notFound d => (rest.1, d :: rest.2)

/-- Projection to the found component of a match outcome. -/
def foundOf : MatchResult → Option SpotifyTrack
  | .found s => some s
  | .notFound _ => none

/-- Projection to the not-found descriptor of a match outcome. -/
def notFoundOf : MatchResult → Option String
  | .found _ => none
  | .notFound d => some d

/-- A write call against the destination playlist API. -/
inductive SpotCall where
  | replaceItems (playlistId : String) (items : List String)
  | addItems (playlistId : String) (ids : List String)
deriving DecidableEq, Repr

/-- Lexicographic comparison of character lists by code point: the
semantics of Python string comparison. -/
def lexLeChars : List Char → List Char → Bool
  | [], _ => true
  | _ :: _, [] => false
  | a :: as, b :: bs =>
    if a < b then true
    else if b < a then false
    else lexLeChars as bs

/-- The sort key used by update_spotify_playlist: the artist name
lowercased (Python str.lower, per character over the ASCII range). -/
def artistKey (t : SpotifyTrack) : List Char :=
  t.artist.data.map Char.toLower

/-- The comparison underlying the stable Python sort: keys compared as
Python strings. -/
def artistKeyLE (a b : SpotifyTrack) : Bool :=
  lexLeChars (artistKey a) (artistKey b)

/-- The sort of update_spotify_playlist: Python sorted with the lowercased
artist as key is the stable sort by that key. -/
def sortTracksByArtist (tracks : List SpotifyTrack) : List SpotifyTrack :=
  tracks.mergeSort artistKeyLE

/-- Split the sorted id list into consecutive chunks of at most 100, the
Spotify API batch limit, with explicit step fuel: each step removes at
least one element from a non-empty list, so fuel equal to the list length
suffices. -/
def chunksOf100Fuel : Nat → List String → List (List String)
  | 0, _ => []
  | fuel + 1, ids =>
    if ids = [] then []
    else ids.take 100 :: chunksOf100Fuel fuel (ids.drop 100)

/-- The chunking loop over the whole id list. -/
def chunksOf100 (ids : List String) : List (List String) :=
  chunksOf100Fuel ids.length ids

/-- Failure model for the try block of update_spotify_playlist: whether the
k-th write call issued raises. -/
abbrev FailSpec := Nat → Bool

/-- Issue write calls in order starting at call index idx; stop at the
first call that raises.  Returns the calls issued, the raising call
included, and whether all of them succeeded. -/
def issueCalls (failAt : FailSpec) (idx : Nat) : List SpotCall → List SpotCall × Bool
  | [] => ([], true)
  | c :: cs =>
    if failAt idx then ([c], false)
    else
      let rest := issueCalls failAt (idx + 1) cs
      (c :: rest.1, rest.2)

/-- Outcome of update_spotify_playlist: the early no-tracks return, the
success message, or the caught-exception path. -/
inductive UpdateOutcome where
  | noTracksToAdd
  | success
  | failed
deriving DecidableEq, Repr

/-- The write sequence update_spotify_playlist attempts: one clearing
replace with an empty item list, then one append per chunk of 100 sorted
track ids. -/
def plannedCalls (playlistId : String) (tracks : List SpotifyTrack) : List SpotCall :=
  SpotCall.replaceItems playlistId [] ::
    (chunksOf100 ((sortTracksByArtist tracks).map (fun t => t.id))).map
      (SpotCall.addItems playlistId)

/-- update_spotify_playlist: return immediately when there are no tracks;
otherwise sort, clear the playlist, and append the sorted ids in chunks,
stopping at the first raising call. -/
def update_spotify_playlist (failAt : FailSpec) (playlistId : String)
    (track_ids : List SpotifyTrack) : List SpotCall × UpdateOutcome :=
  if track_ids = [] then ([], .noTracksToAdd)
  else
    let res := issueCalls failAt 0 (plannedCalls playlistId track_ids)
    (res.1, if res.2 then .success else .failed)

/-- Effect of one successful write call on the destination playlist,
viewed as its list of track ids. -/
def applyCall (s : List String) : SpotCall → List String
  | .replaceItems _ items => items
  | .addItems _ ids => s ++ ids

/-- Effect of a sequence of successful write calls. -/
def applyCalls (s : List String) (calls : List SpotCall) : List String :=
  calls.foldl applyCall s

/-- Python str.lower applied to the console answer, modelled per character
over the ASCII range. -/
def pyLower (s : String) : String :=
  String.mk (s.data.map Char.toLower)

/-- Outcome of the tail of main after the matching phase. -/
inductive MainOutcome where
  | noTracksToSync
  | updated (o : UpdateOutcome)
  | cancelled
deriving DecidableEq, Repr

/-- The confirmation step and write of main: when the matched list is
empty, exit before prompting; otherwise read the console answer, lowercase
it, and call update_spotify_playlist exactly when it equals y, else print
the cancellation message.  Returns the write calls issued and the outcome. -/
def mainConfirmAndUpdate (failAt : FailSpec) (playlistId : String)
    (spotify_tracks : List SpotifyTrack) (answer : String) :
    List SpotCall × MainOutcome :=
  if spotify_tracks = [] then ([], .noTracksToSync)
  else if pyLower answer = "y" then
    let res := update_spotify_playlist failAt playlistId spotify_tracks
    (res.1, .updated res.2)
  else ([], .cancelled)

/-! Helper lemmas about the reconciler. -/

theorem issueCalls_of_no_fail (failAt : FailSpec) (h : ∀ j, failAt j = false)
    (calls : List SpotCall) : ∀ idx, issueCalls failAt idx calls = (calls, true) := by
  induction calls with
  | nil => intro idx; rfl
  | cons c cs ih =>
    intro idx
    simp [issueCalls, h idx, ih (idx + 1)]

theorem issueCalls_first_fail (failAt : FailSpec) :
    ∀ (calls : List SpotCall) (idx k : Nat), idx ≤ k →
      (∀ j, idx ≤ j → j < k → failAt j = false) → failAt k = true →
      k < idx + calls.length →
      issueCalls failAt idx calls = (calls.take (k - idx + 1), false) := by
  intro calls
  induction calls with
  | nil =>
    intro idx k h1 h2 h3 h4
    simp only [List.length_nil, Nat.add_zero] at h4
    omega
  | cons c cs ih =>
    intro idx k hik hmin hk hlen
    by_cases hik' : idx = k
    · subst hik'
      simp [issueCalls, hk]
    · have hlt : idx < k := lt_of_le_of_ne hik hik'
      have hfi : failAt idx = false := hmin idx le_rfl hlt
      simp only [issueCalls, hfi, Bool.false_eq_true, if_false]
      rw [ih (idx + 1) k hlt (fun j hj1 hj2 => hmin j (by omega) hj2) hk
        (by simp only [List.length_cons] at hlen; omega)]
      have hkk : k - idx + 1 = (k - (idx + 1) + 1) + 1 := by omega
      rw [hkk, List.take_succ_cons]

theorem applyCalls_addItems (pid : String) :
    ∀ (chunks : List (List String)) (s : List String),
      applyCalls s (chunks.map (SpotCall.addItems pid)) = s ++ chunks.flatten := by
  intro chunks
  induction chunks with
  | nil => intro s; simp [applyCalls]
  | cons c cs ih =>
    intro s
    simp only [List.map_cons, applyCalls, List.foldl_cons, applyCall]
    have := ih (s ++ c)
    simp only [applyCalls] at this
    rw [this, List.flatten_cons, List.append_assoc]

theorem chunksOf100Fuel_nil : ∀ n : Nat, chunksOf100Fuel n [] = [] := by
  intro n
  cases n with
  | zero => rfl
  | succ n => simp [chunksOf100Fuel]

theorem chunksOf100Fuel_flatten :
    ∀ (n : Nat) (ids : List String), ids.length ≤ n →
      (chunksOf100Fuel n ids).flatten = ids := by
  intro n
  induction n with
  | zero =>
    intro ids h
    have hnil : ids = [] := List.eq_nil_of_length_eq_zero (Nat.le_zero.mp h)
    subst hnil
    rfl
  | succ n ih =>
    intro ids h
    by_cases hid : ids = []
    · simp [chunksOf100Fuel, hid]
    · rw [chunksOf100Fuel, if_neg hid]
      have hpos : 0 < ids.length := List.length_pos.mpr hid
      rw [List.flatten_cons, ih (ids.drop 100) (by simp only [List.length_drop]; omega)]
      exact List.take_append_drop 100 ids

theorem chunksOf100_flatten (ids : List String) : (chunksOf100 ids).flatten = ids :=
  chunksOf100Fuel_flatten ids.length ids le_rfl

theorem chunksOf100Fuel_sizes :
    ∀ (n : Nat) (ids : List String), ids.length ≤ n →
      (chunksOf100Fuel n ids).length = (ids.length + 99) / 100 ∧
      (∀ c ∈ chunksOf100Fuel n ids, c.length ≤ 100) ∧
      (∀ c ∈ (chunksOf100Fuel n ids).dropLast, c.length = 100) := by
  intro n
  induction n with
  | zero =>
    intro ids h
    have hnil : ids = [] := List.eq_nil_of_length_eq_zero (Nat.le_zero.mp h)
    subst hnil
    simp [chunksOf100Fuel]
  | succ n ih =>
    intro ids h
    by_cases hid : ids = []
    · rw [chunksOf100Fuel, if_pos hid]
      simp [hid]
    · rw [chunksOf100Fuel, if_neg hid]
      have hpos : 0 < ids.length := List.length_pos.mpr hid
      obtain ⟨hcount, hle, hfull⟩ :=
        ih (ids.drop 100) (by simp only [List.length_drop]; omega)
      refine ⟨?_, ?_, ?_⟩
      · simp only [List.length_cons, hcount, List.length_drop]
        omega
      · intro c hc
        rcases List.mem_cons.mp hc with hc | hc
        · subst hc
          simp [List.length_take]
        · exact hle c hc
      · intro c hc
        by_cases hrest : chunksOf100Fuel n (ids.drop 100) = []
        · rw [hrest] at hc
          simp at hc
        · obtain ⟨d, ds, hds⟩ := List.exists_cons_of_ne_nil hrest
          rw [hds] at hc
          rw [List.dropLast_cons₂] at hc
          rcases List.mem_cons.mp hc with hc | hc
          · subst hc
            have hdrop : ids.drop 100 ≠ [] := by
              intro hcontra
              rw [hcontra, chunksOf100Fuel_nil] at hrest
              exact hrest rfl
            have : 100 < ids.length := by
              have := List.length_pos.mpr hdrop
              simp only [List.length_drop] at this
              omega
            simp only [List.length_take]
            omega
          · rw [← hds] at hc
            exact hfull c hc

theorem chunksOf100_sizes (ids : List String) :
    (chunksOf100 ids).length = (ids.length + 99) / 100 ∧
    (∀ c ∈ chunksOf100 ids, c.length ≤ 100) ∧
    (∀ c ∈ (chunksOf100 ids).dropLast, c.length = 100) :=
  chunksOf100Fuel_sizes ids.length ids le_rfl

/-! Facts about the key comparison used by the stable sort. -/

theorem lexLeChars_refl : ∀ as : List Char, lexLeChars as as = true := by
  intro as
  induction as with
  | nil => rfl
  | cons a as ih => simp [lexLeChars, lt_irrefl, ih]

theorem lexLeChars_total : ∀ as bs : List Char,
    (lexLeChars as bs || lexLeChars bs as) = true := by
  intro as
  induction as with
  | nil => intro bs; simp [lexLeChars]
  | cons a as ih =>
    intro bs
    cases bs with
    | nil => simp [lexLeChars]
    | cons b bs =>
      by_cases hab : a < b
      · simp [lexLeChars, hab]
      · by_cases hba : b < a
        · simp [lexLeChars, hab, hba]
        · simp [lexLeChars, hab, hba, ih bs]

theorem lexLeChars_trans : ∀ as bs cs : List Char,
    lexLeChars as bs = true → lexLeChars bs cs = true → lexLeChars as cs = true := by
  intro as
  induction as with
  | nil => intro bs cs _ _; rfl
  | cons a as ih =>
    intro bs cs h1 h2
    cases bs with
    | nil => simp [lexLeChars] at h1
    | cons b bs =>
      cases cs with
      | nil => simp [lexLeChars] at h2
      | cons c cs =>
        by_cases hab : a < b
        · by_cases hbc : b < c
          · simp [lexLeChars, lt_trans hab hbc]
          · by_cases hcb : c < b
            · simp [lexLeChars, hbc, hcb] at h2
            · have hbc' : b = c := le_antisymm (not_lt.mp hcb) (not_lt.mp hbc)
              subst hbc'
              simp [lexLeChars, hab]
        · by_cases hba : b < a
          · simp [lexLeChars, hab, hba] at h1
          · have hab' : a = b := le_antisymm (not_lt.mp hba) (not_lt.mp hab)
            subst hab'
            simp only [lexLeChars, if_neg (lt_irrefl a)] at h1
            by_cases hac : a < c
            · simp [lexLeChars, hac]
            · by_cases hca : c < a
              · simp [lexLeChars, hac, hca] at h2
              · simp only [lexLeChars, if_neg hac, if_neg hca] at h2 ⊢
                exact ih bs cs h1 h2

theorem artistKeyLE_trans : ∀ a b c : SpotifyTrack,
    artistKeyLE a b → artistKeyLE b c → artistKeyLE a c := by
  intro a b c h1 h2
  exact lexLeChars_trans _ _ _ h1 h2

theorem artistKeyLE_total : ∀ a b : SpotifyTrack,
    (artistKeyLE a b || artistKeyLE b a) = true := by
  intro a b
  exact lexLeChars_total _ _

/-! Reductions of update_spotify_playlist under the two failure regimes. -/

theorem update_spotify_playlist_no_fail (failAt : FailSpec) (pid : String)
    (tracks : List SpotifyTrack) (hne : tracks ≠ []) (hok : ∀ j, failAt j = false) :
    update_spotify_playlist failAt pid tracks = (plannedCalls pid tracks, .success) := by
  unfold update_spotify_playlist
  rw [if_neg hne, issueCalls_of_no_fail failAt hok _ 0]
  rfl

theorem update_spotify_playlist_first_fail (failAt : FailSpec) (pid : String)
    (tracks : List SpotifyTrack) (k : Nat) (hne : tracks ≠ [])
    (hk : failAt k = true) (hmin : ∀ j, j < k → failAt j = false)
    (hrange : k < (plannedCalls pid tracks).length) :
    update_spotify_playlist failAt pid tracks
      = ((plannedCalls pid tracks).take (k + 1), .failed) := by
  unfold update_spotify_playlist
  rw [if_neg hne, issueCalls_first_fail failAt (plannedCalls pid tracks) 0 k
      (Nat.zero_le k) (fun j _ hj => hmin j hj) hk (by simpa using hrange)]
  simp

/-! Helper lemmas about the paginated fetch. -/

theorem length_filterMap_of_all_isSome {α β : Type} (f : α → Option β) :
    ∀ l : List α, (∀ a ∈ l, (f a).isSome) → (l.filterMap f).length = l.length := by
  intro l
  induction l with
  | nil => intro _; rfl
  | cons a l ih =>
    intro h
    cases hfa : f a with
    | none =>
      have := h a (List.mem_cons_self a l)
      rw [hfa] at this
      simp at this
    | some b =>
      rw [List.filterMap_cons_some hfa]
      simp only [List.length_cons]
      rw [ih (fun a ha => h a (List.mem_cons_of_mem _ ha))]

theorem fetchPages_flatten_shift (api : ApplePages) (offset n : Nat) :
    ((List.range (n + 1)).map
        (fun k => (api (offset + 100 * k)).filterMap toAppleTrack?)).flatten
      = (api offset).filterMap toAppleTrack?
        ++ ((List.range n).map
            (fun k => (api (offset + 100 + 100 * k)).filterMap toAppleTrack?)).flatten := by
  rw [List.range_succ_eq_map]
  simp only [List.map_cons, List.map_map, List.flatten_cons, Nat.mul_zero, Nat.add_zero]
  congr 2
  apply List.map_congr_left
  intro k _
  show (api (offset + 100 * (k + 1))).filterMap toAppleTrack?
      = (api (offset + 100 + 100 * k)).filterMap toAppleTrack?
  have he : offset + 100 * (k + 1) = offset + 100 + 100 * k := by ring
  rw [he]

theorem fetchPages_first_short (api : ApplePages) :
    ∀ (p fuel offset : Nat), p + 1 ≤ fuel →
      (∀ k, k < p → ¬ (api (offset + 100 * k)).length < 100) →
      (api (offset + 100 * p)).length < 100 →
      fetchPages api fuel offset
        = some (((List.range (p + 1)).map
            (fun k => (api (offset + 100 * k)).filterMap toAppleTrack?)).flatten,
          p + 1) := by
  intro p
  induction p with
  | zero =>
    intro fuel offset hfuel hmin hshort
    obtain ⟨f, rfl⟩ : ∃ f, fuel = f + 1 := ⟨fuel - 1, by omega⟩
    simp only [Nat.mul_zero, Nat.add_zero] at hshort
    simp only [fetchPages]
    rw [if_pos hshort]
    have hrone : List.range 1 = [0] := rfl
    rw [hrone]
    simp
  | succ p ih =>
    intro fuel offset hfuel hmin hshort
    obtain ⟨f, rfl⟩ : ∃ f, fuel = f + 1 := ⟨fuel - 1, by omega⟩
    have hnotshort : ¬ (api offset).length < 100 := by
      have := hmin 0 (Nat.succ_pos p)
      simpa using this
    have hmin' : ∀ k, k < p → ¬ (api (offset + 100 + 100 * k)).length < 100 := by
      intro k hk
      have h := hmin (k + 1) (by omega)
      have he : offset + 100 * (k + 1) = offset + 100 + 100 * k := by ring
      rwa [he] at h
    have hshort' : (api (offset + 100 + 100 * p)).length < 100 := by
      have he : offset + 100 * (p + 1) = offset + 100 + 100 * p := by ring
      rwa [he] at hshort
    simp only [fetchPages]
    rw [if_neg hnotshort]
    rw [ih f (offset + 100) (by omega) hmin' hshort']
    rw [fetchPages_flatten_shift api offset (p + 1)]

theorem fetchPages_snd_congr (api api' : ApplePages)
    (hlen : ∀ o, (api' o).length = (api o).length) :
    ∀ fuel offset, Option.map Prod.snd (fetchPages api fuel offset)
      = Option.map Prod.snd (fetchPages api' fuel offset) := by
  intro fuel
  induction fuel with
  | zero => intro offset; rfl
  | succ f ih =>
    intro offset
    simp only [fetchPages]
    by_cases hs : (api offset).length < 100
    · rw [if_pos hs, if_pos (by rw [hlen]; exact hs)]
      rfl
    · rw [if_neg hs, if_neg (by rw [hlen]; exact hs)]
      have h := ih (offset + 100)
      cases h1 : fetchPages api f (offset + 100) with
      | none =>
        cases h2 : fetchPages api' f (offset + 100) with
        | none => rfl
        | some w => rw [h1, h2] at h; simp at h
      | some v =>
        cases h2 : fetchPages api' f (offset + 100) with
        | none => rw [h1, h2] at h; simp at h
        | some w =>
          rw [h1, h2] at h
          obtain ⟨rest, r⟩ := v
          obtain ⟨rest', r'⟩ := w
          simp only [Option.map_some'] at h
          simp only [Option.some.injEq] at h
          simp [h]

theorem fetchPages_characterization (api : ApplePages) :
    ∀ fuel offset ts reqs, fetchPages api fuel offset = some (ts, reqs) →
      ts = ((List.range reqs).map
          (fun k => (api (offset + 100 * k)).filterMap toAppleTrack?)).flatten := by
  intro fuel
  induction fuel with
  | zero => intro offset ts reqs h; simp [fetchPages] at h
  | succ f ih =>
    intro offset ts reqs h
    simp only [fetchPages] at h
    by_cases hs : (api offset).length < 100
    · rw [if_pos hs] at h
      simp only [Option.some.injEq, Prod.mk.injEq] at h
      obtain ⟨hts, hreqs⟩ := h
      subst hts
      subst hreqs
      have hrone : List.range 1 = [0] := rfl
      rw [hrone]
      simp
    · rw [if_neg hs] at h
      cases h1 : fetchPages api f (offset + 100) with
      | none => rw [h1] at h; simp at h
      | some v =>
        obtain ⟨rest, r⟩ := v
        rw [h1] at h
        simp only [Option.some.injEq, Prod.mk.injEq] at h
        obtain ⟨hts, hreqs⟩ := h
        subst hts
        subst hreqs
        rw [ih (offset + 100) rest r h1]
        rw [fetchPages_flatten_shift api offset r]

/-- C4: for a source playlist whose pages each hold at most 100 raw
records, the fetch requests pages at offsets 0, 100, 200 and so on,
stopping after the first page with fewer than 100 raw records (page p),
and returns exactly the usable records of pages 0 through p in page
order, in p + 1 page requests; when additionally every record is usable
and the returned count is N, the number of page requests equals the
ceiling of (N + 1) / 100. -/
theorem claim_C4_pagination_totality (api : ApplePages) (p fuel : Nat)
    (hle : ∀ k, (api (100 * k)).length ≤ 100)
    (hfirst : ∀ k, k < p → ¬ (api (100 * k)).length < 100)
    (hshort : (api (100 * p)).length < 100)
    (hfuel : p + 1 ≤ fuel) :
    get_apple_music_tracks api fuel
      = some (((List.range (p + 1)).map
          (fun k => (api (100 * k)).filterMap toAppleTrack?)).flatten, p + 1) ∧
    ((∀ k, k ≤ p → ∀ r ∈ api (100 * k), (toAppleTrack? r).isSome) →
      p + 1 = ((((List.range (p + 1)).map
          (fun k => (api (100 * k)).filterMap toAppleTrack?)).flatten).length + 1 + 99)
        / 100) := by
  constructor
  · have h0 := fetchPages_first_short api p fuel 0 hfuel
      (by intro k hk; simpa using hfirst k hk) (by simpa using hshort)
    unfold get_apple_music_tracks
    rw [h0]
    simp only [Nat.zero_add]
  · intro hall
    have hN : (((List.range (p + 1)).map
        (fun k => (api (100 * k)).filterMap toAppleTrack?)).flatten).length
        = 100 * p + ((api (100 * p)).filterMap toAppleTrack?).length := by
      rw [List.length_flatten, List.map_map]
      rw [List.range_succ, List.map_append, List.sum_append]
      simp only [List.map_cons, List.map_nil, List.sum_cons, List.sum_nil,
        Function.comp_apply, Nat.add_zero]
      have hmapeq : (List.range p).map
          (fun k => ((api (100 * k)).filterMap toAppleTrack?).length)
          = List.replicate p 100 := by
        apply List.eq_replicate_iff.mpr
        refine ⟨by simp, ?_⟩
        intro b hb
        obtain ⟨k, hk, rfl⟩ := List.mem_map.mp hb
        have hkp : k < p := List.mem_range.mp hk
        rw [length_filterMap_of_all_isSome toAppleTrack? (api (100 * k))
          (fun r hr => hall k (by omega) r hr)]
        have h1 := hle k
        have h2 := hfirst k hkp
        omega
      simp only [Function.comp_def]
      rw [hmapeq, List.sum_replicate, smul_eq_mul]
      ring
    rw [hN]
    have hr : ((api (100 * p)).filterMap toAppleTrack?).length < 100 :=
      lt_of_le_of_lt (List.length_filterMap_le toAppleTrack? (api (100 * p))) hshort
    omega

/-- Witness for C4: an API whose very first page is empty. -/
theorem claim_C4_witness :
    get_apple_music_tracks (fun _ => []) 1 = some ([], 1) ∧
    (1 : Nat) = ((([] : List AppleTrack).length) + 1 + 99) / 100 := by
  have h := claim_C4_pagination_totality (fun _ => []) 0 1
    (fun k => by simp) (fun k hk => absurd hk (Nat.not_lt_zero k)) (by simp) le_rfl
  constructor
  · have h1 := h.1
    simpa using h1
  · have h2 := h.2 (fun k hk r hr => absurd hr (List.not_mem_nil r))
    simpa using h2

/-- C5: a raw record lacking the attributes field, or lacking either
required subfield, is dropped by the per-record projection and hence
excluded from the returned track list, and pagination control depends
only on raw page lengths: two APIs with identical page lengths terminate
identically and issue the same number of page requests. -/
theorem claim_C5_malformed_records_skipped (api api' : ApplePages)
    (hlen : ∀ o, (api' o).length = (api o).length) (fuel : Nat) :
    Option.map Prod.snd (get_apple_music_tracks api fuel)
      = Option.map Prod.snd (get_apple_music_tracks api' fuel) ∧
    (∀ ts reqs, get_apple_music_tracks api fuel = some (ts, reqs) →
      ts = ((List.range reqs).map
          (fun k => (api (100 * k)).filterMap toAppleTrack?)).flatten) ∧
    (∀ r : RawTrack,
      (r.attributes = none ∨
        ∀ a, r.attributes = some a → (a.artistName = none ∨ a.name = none)) →
      toAppleTrack? r = none) := by
  refine ⟨fetchPages_snd_congr api api' hlen fuel 0, ?_, ?_⟩
  · intro ts reqs h
    have := fetchPages_characterization api fuel 0 ts reqs h
    simpa using this
  · intro r hr
    rcases hr with hr | hr
    · simp [toAppleTrack?, hr]
    · cases ha : r.attributes with
      | none => simp [toAppleTrack?, ha]
      | some a =>
        rcases hr a ha with hn | hn <;> simp [toAppleTrack?, ha, hn]

/-- Witness for C5: a page holding one malformed record produces no
tracks, and an API with one usable record per page paginates exactly the
same way. -/
theorem claim_C5_witness :
    Option.map Prod.snd (get_apple_music_tracks (fun _ => [⟨none⟩]) 1)
      = Option.map Prod.snd
          (get_apple_music_tracks (fun _ => [⟨some ⟨some "A", some "S"⟩⟩]) 1) ∧
    toAppleTrack? ⟨none⟩ = none := by
  have h := claim_C5_malformed_records_skipped (fun _ => [⟨none⟩])
    (fun _ => [⟨some ⟨some "A", some "S"⟩⟩]) (fun o => rfl) 1
  exact ⟨h.1, h.2.2 ⟨none⟩ (Or.inl rfl)⟩

/-- C1: the destination-playlist write (the replace call and every append
call of update_spotify_playlist) is never invoked unless the confirmation
answer read from the console lowercases to the affirmative y; for every
other answer the run ends with no destination write call made. -/
theorem claim_C1_confirmation_gate (failAt : FailSpec) (pid : String)
    (tracks : List SpotifyTrack) (answer : String) :
    ((mainConfirmAndUpdate failAt pid tracks answer).1 ≠ [] → pyLower answer = "y") ∧
    (pyLower answer ≠ "y" → (mainConfirmAndUpdate failAt pid tracks answer).1 = []) := by
  unfold mainConfirmAndUpdate
  by_cases ht : tracks = []
  · rw [if_pos ht]
    exact ⟨fun h => absurd rfl h, fun _ => rfl⟩
  · rw [if_neg ht]
    by_cases hy : pyLower answer = "y"
    · rw [if_pos hy]
      exact ⟨fun _ => hy, fun h => absurd hy h⟩
    · rw [if_neg hy]
      exact ⟨fun h => absurd rfl h, fun _ => rfl⟩

/-- Witness for C1 at a concrete declined confirmation. -/
theorem claim_C1_witness :
    (mainConfirmAndUpdate (fun _ => false) "P" [⟨"1", "B", "t"⟩] "n").1 = [] :=
  (claim_C1_confirmation_gate (fun _ => false) "P" [⟨"1", "B", "t"⟩] "n").2 (by decide)

/-- C2: for every non-empty matched list, a reconciliation in which no
write call raises succeeds and leaves the destination playlist holding
exactly the matched tracks sorted by the lowercased artist name: the
sorted list is a permutation of the input (nothing added or dropped), it
is ordered by the case-insensitive key, and two tracks with equal keys
keep their original relative order. -/
theorem claim_C2_reconciliation_sorted_stable (failAt : FailSpec) (pid : String)
    (tracks : List SpotifyTrack) (hne : tracks ≠ []) (hok : ∀ j, failAt j = false) :
    (update_spotify_playlist failAt pid tracks).2 = UpdateOutcome.success ∧
    (∀ s, applyCalls s (update_spotify_playlist failAt pid tracks).1
        = (sortTracksByArtist tracks).map (fun t => t.id)) ∧
    List.Perm (sortTracksByArtist tracks) tracks ∧
    (sortTracksByArtist tracks).Pairwise (fun a b => artistKeyLE a b = true) ∧
    (∀ a b, List.Sublist [a, b] tracks → artistKey a = artistKey b →
      List.Sublist [a, b] (sortTracksByArtist tracks)) := by
  have hupd := update_spotify_playlist_no_fail failAt pid tracks hne hok
  refine ⟨by rw [hupd], ?_, ?_, ?_, ?_⟩
  · intro s
    rw [hupd]
    show applyCalls s (plannedCalls pid tracks) = _
    unfold plannedCalls
    simp only [applyCalls, List.foldl_cons, applyCall]
    have h := applyCalls_addItems pid
      (chunksOf100 ((sortTracksByArtist tracks).map (fun t => t.id))) []
    simp only [applyCalls] at h
    rw [h, List.nil_append, chunksOf100_flatten]
  · exact List.mergeSort_perm tracks artistKeyLE
  · exact List.sorted_mergeSort artistKeyLE_trans artistKeyLE_total tracks
  · intro a b hab hkey
    exact List.pair_sublist_mergeSort artistKeyLE_trans artistKeyLE_total
      (by unfold artistKeyLE; rw [hkey]; exact lexLeChars_refl _) hab

/-- Witness for C2 on the one-track list, starting from a non-empty
destination playlist. -/
theorem claim_C2_witness :
    applyCalls ["old"]
        (update_spotify_playlist (fun _ => false) "P" [⟨"1", "B", "t"⟩]).1
      = ["1"] := by
  have h := claim_C2_reconciliation_sorted_stable (fun _ => false) "P"
    [⟨"1", "B", "t"⟩] (by simp) (fun j => rfl)
  rw [h.2.1 ["old"]]
  simp [sortTracksByArtist]

/-- C3: for every non-empty matched list and failure-free run,
reconciliation issues exactly one replace call with an empty item list
followed by the append calls of the consecutive chunks: there are
ceil(n/100) chunks, each of at most 100 ids, all but the last of exactly
100, and their concatenation in call order is the sorted id sequence. -/
theorem claim_C3_replace_then_chunked_appends (failAt : FailSpec) (pid : String)
    (tracks : List SpotifyTrack) (hne : tracks ≠ []) (hok : ∀ j, failAt j = false) :
    ∃ chunks : List (List String),
      (update_spotify_playlist failAt pid tracks).1
        = SpotCall.replaceItems pid [] :: chunks.map (SpotCall.addItems pid) ∧
      chunks.length = (tracks.length + 99) / 100 ∧
      (∀ c ∈ chunks, c.length ≤ 100) ∧
      (∀ c ∈ chunks.dropLast, c.length = 100) ∧
      chunks.flatten = (sortTracksByArtist tracks).map (fun t => t.id) := by
  have hupd := update_spotify_playlist_no_fail failAt pid tracks hne hok
  refine ⟨chunksOf100 ((sortTracksByArtist tracks).map (fun t => t.id)),
    ?_, ?_, ?_, ?_, ?_⟩
  · rw [hupd]
    rfl
  · rw [(chunksOf100_sizes _).1]
    simp only [List.length_map, sortTracksByArtist, List.length_mergeSort]
  · exact (chunksOf100_sizes _).2.1
  · exact (chunksOf100_sizes _).2.2
  · exact chunksOf100_flatten _

/-- Witness for C3 on the 250-track list of the specification example. -/
theorem claim_C3_witness :
    ∃ chunks : List (List String),
      (update_spotify_playlist (fun _ => false) "P"
          (List.replicate 250 ⟨"1", "a", "n"⟩)).1
        = SpotCall.replaceItems "P" [] :: chunks.map (SpotCall.addItems "P") ∧
      chunks.length = ((List.replicate 250 (⟨"1", "a", "n"⟩ : SpotifyTrack)).length + 99) / 100 ∧
      (∀ c ∈ chunks, c.length ≤ 100) ∧
      (∀ c ∈ chunks.dropLast, c.length = 100) ∧
      chunks.flatten
        = (sortTracksByArtist (List.replicate 250 ⟨"1", "a", "n"⟩)).map (fun t => t.id) :=
  claim_C3_replace_then_chunked_appends (fun _ => false) "P"
    (List.replicate 250 ⟨"1", "a", "n"⟩)
    (List.length_pos.mp (by rw [List.length_replicate]; omega)) (fun j => rfl)

/-- C8: with an empty matched list, reconciliation is a no-op: it reports
the no-tracks condition, issues no replace and no append call, and leaves
any destination playlist contents untouched. -/
theorem claim_C8_empty_reconciliation_noop (failAt : FailSpec) (pid : String) :
    update_spotify_playlist failAt pid [] = ([], UpdateOutcome.noTracksToAdd) ∧
    ∀ s, applyCalls s (update_spotify_playlist failAt pid []).1 = s := by
  constructor
  · rfl
  · intro s
    rfl

/-- C9: when the k-th write call raises (the replace call for k equal 0, a
chunk append otherwise) and all earlier calls succeed, reconciliation
reports failure, the calls issued are exactly the planned prefix up to and
including the raising call, and the applied prefix is not rolled back: the
playlist is left cleared with the first k minus 1 chunks appended. -/
theorem claim_C9_failure_stops_no_rollback (failAt : FailSpec) (pid : String)
    (tracks : List SpotifyTrack) (k : Nat) (hne : tracks ≠ [])
    (hk : failAt k = true) (hmin : ∀ j, j < k → failAt j = false)
    (hrange : k < (plannedCalls pid tracks).length) :
    (update_spotify_playlist failAt pid tracks).2 = UpdateOutcome.failed ∧
    (update_spotify_playlist failAt pid tracks).1
      = (plannedCalls pid tracks).take (k + 1) ∧
    (update_spotify_playlist failAt pid tracks).1.dropLast
      = (plannedCalls pid tracks).take k ∧
    (∀ s, applyCalls s ((plannedCalls pid tracks).take k)
        = if k = 0 then s
          else ((chunksOf100 ((sortTracksByArtist tracks).map (fun t => t.id))).take
              (k - 1)).flatten) := by
  have hupd := update_spotify_playlist_first_fail failAt pid tracks k hne hk hmin hrange
  refine ⟨by rw [hupd], by rw [hupd], ?_, ?_⟩
  · rw [hupd]
    show ((plannedCalls pid tracks).take (k + 1)).dropLast = _
    rw [List.dropLast_eq_take, List.length_take]
    rw [List.take_take]
    congr 1
    omega
  · intro s
    cases k with
    | zero => simp [applyCalls]
    | succ j =>
      have hplan : plannedCalls pid tracks
          = SpotCall.replaceItems pid []
            :: ((chunksOf100 ((sortTracksByArtist tracks).map (fun t => t.id))).map
              (SpotCall.addItems pid)) := rfl
      rw [hplan, List.take_succ_cons]
      simp only [applyCalls, List.foldl_cons, applyCall]
      rw [← List.map_take]
      have h := applyCalls_addItems pid
        ((chunksOf100 ((sortTracksByArtist tracks).map (fun t => t.id))).take j) []
      simp only [applyCalls] at h
      rw [h, List.nil_append]
      simp

/-- Witness for C9 with the replace call itself raising. -/
theorem claim_C9_witness :
    (update_spotify_playlist (fun _ => true) "P" [⟨"1", "a", "n"⟩]).2
        = UpdateOutcome.failed ∧
    (update_spotify_playlist (fun _ => true) "P" [⟨"1", "a", "n"⟩]).1
        = (plannedCalls "P" [⟨"1", "a", "n"⟩]).take 1 ∧
    applyCalls ["old"] ((plannedCalls "P" [⟨"1", "a", "n"⟩]).take 0) = ["old"] := by
  have h := claim_C9_failure_stops_no_rollback (fun _ => true) "P"
    [⟨"1", "a", "n"⟩] 0 (by simp) rfl (fun j hj => absurd hj (Nat.not_lt_zero j))
    (by simp [plannedCalls])
  refine ⟨h.1, h.2.1, ?_⟩
  have h4 := h.2.2.2 ["old"]
  simpa using h4

/-- C10: the confirmation check lowercases the console input and compares
it with the single character y: with a non-empty matched list, the update
is invoked exactly when the lowercased input equals y, and any other input
ends the run as cancelled. -/
theorem claim_C10_confirmation_lowercase_exact (failAt : FailSpec) (pid : String)
    (tracks : List SpotifyTrack) (answer : String) (hne : tracks ≠ []) :
    ((∃ o, (mainConfirmAndUpdate failAt pid tracks answer).2 = MainOutcome.updated o)
        ↔ pyLower answer = "y") ∧
    (pyLower answer ≠ "y" →
      (mainConfirmAndUpdate failAt pid tracks answer).2 = MainOutcome.cancelled) := by
  unfold mainConfirmAndUpdate
  rw [if_neg hne]
  by_cases hy : pyLower answer = "y"
  · rw [if_pos hy]
    exact ⟨⟨fun _ => hy, fun _ => ⟨_, rfl⟩⟩, fun h => absurd hy h⟩
  · rw [if_neg hy]
    refine ⟨⟨?_, fun h => absurd h hy⟩, fun _ => rfl⟩
    rintro ⟨o, ho⟩
    simp at ho

/-- Witness for C10: uppercase Y triggers the update; yes, padded y and the
empty answer cancel. -/
theorem claim_C10_witness :
    (∃ o, (mainConfirmAndUpdate (fun _ => false) "P" [⟨"1", "B", "t"⟩] "Y").2
        = MainOutcome.updated o) ∧
    (mainConfirmAndUpdate (fun _ => false) "P" [⟨"1", "B", "t"⟩] "yes").2
        = MainOutcome.cancelled ∧
    (mainConfirmAndUpdate (fun _ => false) "P" [⟨"1", "B", "t"⟩] " y").2
        = MainOutcome.cancelled ∧
    (mainConfirmAndUpdate (fun _ => false) "P" [⟨"1", "B", "t"⟩] "").2
        = MainOutcome.cancelled :=
  ⟨(claim_C10_confirmation_lowercase_exact (fun _ => false) "P" _ "Y"
      (by simp)).1.mpr (by decide),
   (claim_C10_confirmation_lowercase_exact (fun _ => false) "P" _ "yes"
      (by simp)).2 (by decide),
   (claim_C10_confirmation_lowercase_exact (fun _ => false) "P" _ " y"
      (by simp)).2 (by decide),
   (claim_C10_confirmation_lowercase_exact (fun _ => false) "P" _ ""
      (by simp)).2 (by decide)⟩

/-! Helper lemmas about the matcher. -/

theorem find_spotify_tracks_eq (sp : SearchAPI) :
    ∀ ts : List AppleTrack,
      find_spotify_tracks sp ts
        = (ts.filterMap (fun t => foundOf (searchOne sp t).1),
           ts.filterMap (fun t => notFoundOf (searchOne sp t).1)) := by
  intro ts
  induction ts with
  | nil => rfl
  | cons t ts ih =>
    cases h : (searchOne sp t).1 with
    | found s =>
      simp only [find_spotify_tracks, h, ih, List.filterMap_cons, foundOf, notFoundOf]
    | notFound d =>
      simp only [find_spotify_tracks, h, ih, List.filterMap_cons, foundOf, notFoundOf]

theorem find_spotify_tracks_length (sp : SearchAPI) :
    ∀ ts : List AppleTrack,
      (find_spotify_tracks sp ts).1.length + (find_spotify_tracks sp ts).2.length
        = ts.length := by
  intro ts
  induction ts with
  | nil => rfl
  | cons t ts ih =>
    cases h : (searchOne sp t).1 with
    | found s =>
      simp only [find_spotify_tracks, h, List.length_cons]
      omega
    | notFound d =>
      simp only [find_spotify_tracks, h, List.length_cons]
      omega

theorem no_match_of_bounded (cs : List Char)
    (h : ∀ i, i < cs.length →
      matchParenAt (List.drop i cs) = none ∧ matchBracketAt (List.drop i cs) = none) :
    ∀ i, matchParenAt (List.drop i cs) = none ∧ matchBracketAt (List.drop i cs) = none := by
  intro i
  by_cases hi : i < cs.length
  · exact h i hi
  · rw [List.drop_eq_nil_of_le (le_of_not_lt hi)]
    exact ⟨rfl, rfl⟩

theorem reSubCleanFuel_no_match :
    ∀ (fuel : Nat) (cs : List Char), cs.length ≤ fuel →
      (∀ i, matchParenAt (List.drop i cs) = none
        ∧ matchBracketAt (List.drop i cs) = none) →
      reSubCleanFuel fuel cs = cs := by
  intro fuel
  induction fuel with
  | zero =>
    intro cs h _
    have hnil : cs = [] := List.eq_nil_of_length_eq_zero (Nat.le_zero.mp h)
    subst hnil
    rfl
  | succ f ih =>
    intro cs h hnm
    cases cs with
    | nil => rfl
    | cons c cs =>
      have h0 := hnm 0
      simp only [List.drop_zero] at h0
      simp only [reSubCleanFuel, h0.1, h0.2]
      rw [ih cs (by simp only [List.length_cons] at h; omega)
        (fun i => by have := hnm (i + 1); simpa using this)]

theorem pyStrip_of_no_edge_ws (cs : List Char)
    (hhead : Option.all (fun c => !isPyWs c) cs.head? = true)
    (hlast : Option.all (fun c => !isPyWs c) cs.getLast? = true) :
    pyStrip cs = cs := by
  unfold pyStrip
  have h1 : cs.dropWhile isPyWs = cs := by
    cases cs with
    | nil => rfl
    | cons c cs =>
      simp only [List.head?_cons, Option.all_some] at hhead
      rw [List.dropWhile_cons_of_neg]
      simpa using hhead
  rw [h1]
  have h2 : cs.reverse.dropWhile isPyWs = cs.reverse := by
    cases hrev : cs.reverse with
    | nil => rfl
    | cons c cs2 =>
      have hg : cs.getLast? = some c := by
        rw [← List.head?_reverse, hrev]
        rfl
      rw [hg, Option.all_some] at hlast
      rw [List.dropWhile_cons_of_neg]
      simpa using hlast
  rw [h2, List.reverse_reverse]

theorem cleanTitle_of_no_match (s : String)
    (hnm : ∀ i, matchParenAt (List.drop i s.data) = none
        ∧ matchBracketAt (List.drop i s.data) = none)
    (hhead : Option.all (fun c => !isPyWs c) s.data.head? = true)
    (hlast : Option.all (fun c => !isPyWs c) s.data.getLast? = true) :
    cleanTitle s = s := by
  unfold cleanTitle reSubClean
  rw [reSubCleanFuel_no_match s.data.length s.data le_rfl hnm]
  rw [pyStrip_of_no_edge_ws s.data hhead hlast]

/-- C6: the matcher is total and order preserving: for every input list the
found list and the not-found list are exactly the per-track outcomes kept
in input order, their lengths sum to the input length, and a raise in the
first or the second search of a track is caught locally and recorded as a
search-error descriptor for that track alone. -/
theorem claim_C6_matcher_total_order_error_isolated (sp : SearchAPI)
    (ts : List AppleTrack) :
    (find_spotify_tracks sp ts).1
        = ts.filterMap (fun t => foundOf (searchOne sp t).1) ∧
    (find_spotify_tracks sp ts).2
        = ts.filterMap (fun t => notFoundOf (searchOne sp t).1) ∧
    (find_spotify_tracks sp ts).1.length + (find_spotify_tracks sp ts).2.length
        = ts.length ∧
    (∀ t : AppleTrack, ∀ e, sp (searchQuery t.name t.artist) = Except.error e →
      (searchOne sp t).1 = MatchResult.notFound (errorDesc t)) ∧
    (∀ t : AppleTrack, ∀ e, sp (searchQuery t.name t.artist) = Except.ok [] →
      cleanTitle t.name ≠ t.name →
      sp (searchQuery (cleanTitle t.name) t.artist) = Except.error e →
      (searchOne sp t).1 = MatchResult.notFound (errorDesc t)) := by
  have h := find_spotify_tracks_eq sp ts
  refine ⟨by rw [h], by rw [h], find_spotify_tracks_length sp ts, ?_, ?_⟩
  · intro t e he
    simp [searchOne, he]
  · intro t e h1 hne h2
    simp [searchOne, h1, h2, hne]

/-- Witness for C6 with a search API that always raises. -/
theorem claim_C6_witness :
    (find_spotify_tracks (fun _ => Except.error "boom") [⟨"A", "S"⟩]).1.length
        + (find_spotify_tracks (fun _ => Except.error "boom") [⟨"A", "S"⟩]).2.length
      = 1 ∧
    (searchOne (fun _ => Except.error "boom") ⟨"A", "S"⟩).1
        = MatchResult.notFound "A - S (Error during search)" := by
  have h := claim_C6_matcher_total_order_error_isolated
    (fun _ => Except.error "boom") [⟨"A", "S"⟩]
  refine ⟨h.2.2.1, ?_⟩
  have h4 := h.2.2.2.1 ⟨"A", "S"⟩ "boom" rfl
  rw [h4]
  decide

/-- C7 as stated is false: the title built of the word Song with a space
on each side contains no parenthesised or bracketed substring (none of
the four delimiter characters occurs, and the cleaning pattern matches
nowhere), yet the cleaning step strips the surrounding whitespace, so the
cleaned title differs from the original and the second search is issued. -/
theorem claim_C7_counterexample :
    (∀ c ∈ (" Song ").data, c ≠ '(' ∧ c ≠ ')' ∧ c ≠ '[' ∧ c ≠ ']') ∧
    (∀ i, matchParenAt (List.drop i (" Song ").data) = none
        ∧ matchBracketAt (List.drop i (" Song ").data) = none) ∧
    cleanTitle " Song " ≠ " Song " ∧
    (searchOne (fun _ => Except.ok []) ⟨"A", " Song "⟩).2
      = [searchQuery " Song " "A", searchQuery "Song" "A"] := by
  refine ⟨by decide, no_match_of_bounded _ (by decide), by decide, by decide⟩

/-- C7 (amended): for every title in which the cleaning pattern matches
nowhere and whose first and last characters are not whitespace, the
title-cleaning step returns the title unchanged, and consequently the
second cleaned-title search is skipped: exactly one query is issued. -/
theorem claim_C7_cleaning_identity_amended (sp : SearchAPI) (t : AppleTrack)
    (hnm : ∀ i, matchParenAt (List.drop i t.name.data) = none
        ∧ matchBracketAt (List.drop i t.name.data) = none)
    (hhead : Option.all (fun c => !isPyWs c) t.name.data.head? = true)
    (hlast : Option.all (fun c => !isPyWs c) t.name.data.getLast? = true) :
    cleanTitle t.name = t.name ∧
    (searchOne sp t).2 = [searchQuery t.name t.artist] := by
  have hc := cleanTitle_of_no_match t.name hnm hhead hlast
  refine ⟨hc, ?_⟩
  unfold searchOne
  cases hsp : sp (searchQuery t.name t.artist) with
  | error e => simp [hsp]
  | ok items =>
    by_cases hi : items.isEmpty
    · simp [hsp, hi, hc]
    · simp [hsp, hi]

/-- Witness for the amended C7 on a clean one-word title. -/
theorem claim_C7_witness :
    cleanTitle "Song" = "Song" ∧
    (searchOne (fun _ => Except.ok []) ⟨"A", "Song"⟩).2
      = [searchQuery "Song" "A"] :=
  claim_C7_cleaning_identity_amended (fun _ => Except.ok []) ⟨"A", "Song"⟩
    (no_match_of_bounded _ (by decide)) (by decide) (by decide)

end AppleSpotifySync
